import Mathlib

/-
  Verification of the Minesweeper knowledge-base inference engine
  (source: minesweeper.py, classes Sentence and MinesweeperAI).

  The engine state and its operations are embedded as executable Lean
  definitions.  Cells are integer coordinate pairs (neighbourhood
  generation can produce negative coordinates, exactly as in the source).
  Sentence counts are integers (they can be decremented below zero by the
  source code).  The unbounded while loop of add_knowledge is modelled
  with explicit fuel; the Bool component of closureLoop records whether
  the loop reached its exit condition (true) or ran out of fuel (false).
-/

abbrev Cell := Int × Int

/-- A sentence: a set of board cells and a count of how many are mines. -/
structure Sentence where
  cells : Finset Cell
  count : Int
deriving DecidableEq

/-- Sentence.mark_safe from the source: if the cell is in the sentence,
remove it; the count is unchanged. -/
def Sentence.mark_safe (s : Sentence) (cell : Cell) : Sentence :=
  if cell ∈ s.cells then { cells := s.cells.erase cell, count := s.count } else s

/-- Sentence.mark_mine from the source: if the cell is in the sentence,
remove it and decrement the count. -/
def Sentence.mark_mine (s : Sentence) (cell : Cell) : Sentence :=
  if cell ∈ s.cells then { cells := s.cells.erase cell, count := s.count - 1 } else s

/-- The eight neighbour cells, in the order written on line 198 of the
source; no board-bounds intersection is performed there. -/
def nbhdList (cell : Cell) : List Cell :=
  [(cell.1 - 1, cell.2 + 1), (cell.1, cell.2 + 1), (cell.1 + 1, cell.2 + 1),
   (cell.1 - 1, cell.2), (cell.1 + 1, cell.2),
   (cell.1 - 1, cell.2 - 1), (cell.1, cell.2 - 1), (cell.1 + 1, cell.2 - 1)]

/-- The eight neighbour cells as a set (the source passes the list to
the set constructor inside Sentence). -/
def nbhd (cell : Cell) : Finset Cell := (nbhdList cell).toFinset

/-- State of the MinesweeperAI object. -/
structure AI where
  height : Int
  width : Int
  moves_made : Finset Cell
  mines : Finset Cell
  safes : Finset Cell
  knowledge : List Sentence
deriving DecidableEq

/-- MinesweeperAI.__init__. -/
def initAI (height width : Int) : AI :=
  { height := height, width := width, moves_made := ∅, mines := ∅,
    safes := ∅, knowledge := [] }

/-- MinesweeperAI.mark_mine: add the cell to mines and propagate to
every sentence. -/
def AI.mark_mine (ai : AI) (cell : Cell) : AI :=
  { ai with mines := insert cell ai.mines,
            knowledge := ai.knowledge.map (fun s => s.mark_mine cell) }

/-- MinesweeperAI.mark_safe: add the cell to safes and propagate to
every sentence. -/
def AI.mark_safe (ai : AI) (cell : Cell) : AI :=
  { ai with safes := insert cell ai.safes,
            knowledge := ai.knowledge.map (fun s => s.mark_safe cell) }

/-- One candidate derivation of the closure (source lines 205 to 212):
read the sentences at positions x and y, and if one cell set contains
the other, append the symmetric difference sentence with the absolute
count difference, unless an equal sentence is already present.  The
Bool result is the change flag contribution. -/
def tryPair (K : List Sentence) (x y : Nat) : List Sentence × Bool :=
  match K.get? x, K.get? y with
  | some s1, some s2 =>
    if s2.cells ⊆ s1.cells ∨ s1.cells ⊆ s2.cells then
      if (⟨(s2.cells \ s1.cells) ∪ (s1.cells \ s2.cells), |s2.count - s1.count|⟩ : Sentence) ∈ K
      then (K, false)
      else (K ++ [⟨(s2.cells \ s1.cells) ∪ (s1.cells \ s2.cells), |s2.count - s1.count|⟩], true)
    else (K, false)
  | _, _ => (K, false)

/-- Inner loop over y of the subsumption pass.  The list of y indices is
fixed when the inner loop starts, as in the source. -/
def innerLoop (x : Nat) : List Nat → List Sentence → Bool → List Sentence × Bool
  | [], K, ch => (K, ch)
  | y :: ys, K, ch =>
    let r := tryPair K x y
    innerLoop x ys r.1 (ch || r.2)

/-- Outer loop over x of the subsumption pass.  The inner index range is
recomputed from the current knowledge length at the start of each inner
loop, as range(len(self.knowledge)) is in the source. -/
def outerLoop : List Nat → List Sentence → Bool → List Sentence × Bool
  | [], K, ch => (K, ch)
  | x :: xs, K, ch =>
    let r := innerLoop x (List.range K.length) K ch
    outerLoop xs r.1 r.2

/-- One full subsumption pass (the doubly nested for loop of the source);
the outer index range is fixed at the start of the pass. -/
def subsumptionPass (K : List Sentence) : List Sentence × Bool :=
  outerLoop (List.range K.length) K false

/-- Cleanup pass of the closure for safe cells (source lines 215 to 220):
remove from every sentence the cells known safe; counts unchanged. -/
def cleanupSafes (safes : Finset Cell) (K : List Sentence) : List Sentence :=
  K.map (fun s => { cells := s.cells \ safes, count := s.count })

/-- Cleanup pass of the closure for mine cells (source lines 223 to 229):
remove from every sentence the cells known to be mines, decrementing the
count once per removed cell. -/
def cleanupMines (mines : Finset Cell) (K : List Sentence) : List Sentence :=
  K.map (fun s =>
    { cells := s.cells \ mines, count := s.count - ((s.cells ∩ mines).card : Int) })

/-- The while loop of add_knowledge (source lines 199 to 229), with fuel.
The loop body runs while the previous pass changed something and the
knowledge list does not have exactly one element.  The Bool result is
true when the loop exited by its own condition and false when the fuel
ran out before that. -/
def closureLoop : Nat → Finset Cell → Finset Cell → List Sentence → List Sentence × Bool
  | 0, _, _, K => (K, false)
  | Nat.succ fuel, safes, mines, K =>
    if K.length = 1 then (K, true)
    else if (subsumptionPass K).2 then
      closureLoop fuel safes mines
        (cleanupMines mines (cleanupSafes safes (subsumptionPass K).1))
    else (cleanupMines mines (cleanupSafes safes (subsumptionPass K).1), true)

/-- Final scan of add_knowledge (source lines 251 to 255): every cell of
a sentence whose cell count equals its mine count is added to mines. -/
def mineScan (K : List Sentence) (acc : Finset Cell) : Finset Cell :=
  K.foldl (fun m s => if (s.cells.card : Int) = s.count then m ∪ s.cells else m) acc

/-- The hard coded board bounds check of the count equals zero branch
(source line 245): both coordinates between 0 and 7, regardless of the
stored height and width. -/
def inb07 (p : Cell) : Bool :=
  decide (0 ≤ p.1 ∧ p.1 ≤ 7 ∧ 0 ≤ p.2 ∧ p.2 ≤ 7)

/-- The knowledge list passed to the while loop in the count not zero
branch: existing sentences with the observed cell marked safe, plus the
new neighbourhood sentence. -/
def closureInput (ai : AI) (cell : Cell) (count : Int) : List Sentence :=
  ai.knowledge.map (fun s => s.mark_safe cell) ++ [⟨nbhd cell, count⟩]

/-- MinesweeperAI.add_knowledge (source lines 177 to 255).  Note what the
source does and does not do: the observed cell is added to moves_made and
marked safe inside every existing sentence, but is never added to the
safes set; the closure loop runs only when the count is not zero and the
knowledge list length is not one; the count equals zero branch adds the
neighbours with coordinates in the 0..7 box to safes; the final mine scan
runs in both branches. -/
def AI.add_knowledge (ai : AI) (cell : Cell) (count : Int) (fuel : Nat) : AI :=
  let moves := insert cell ai.moves_made
  let K0 := ai.knowledge.map (fun s => s.mark_safe cell)
  if count ≠ 0 then
    let K := (closureLoop fuel ai.safes ai.mines (closureInput ai cell count)).1
    { ai with moves_made := moves, knowledge := K, mines := mineScan K ai.mines }
  else
    let safes2 := ai.safes ∪ ((nbhdList cell).filter inb07).toFinset
    { ai with moves_made := moves, knowledge := K0, safes := safes2,
              mines := mineScan K0 ai.mines }

/-- A fixed linear enumeration order on cells, standing in for the
unspecified iteration order of a Python set. -/
def cellLE (a b : Cell) : Prop := a.1 < b.1 ∨ (a.1 = b.1 ∧ a.2 ≤ b.2)

instance : DecidableRel cellLE := fun a b => by
  unfold cellLE; infer_instance

instance : IsTrans Cell cellLE :=
  ⟨by intro a b c hab hbc; unfold cellLE at *; omega⟩

instance : IsAntisymm Cell cellLE := by
  refine ⟨fun a b hab hba => ?_⟩
  unfold cellLE at *
  have h1 : a.1 = b.1 ∧ a.2 = b.2 := by omega
  exact Prod.ext h1.1 h1.2

instance : IsTotal Cell cellLE :=
  ⟨by intro a b; unfold cellLE; omega⟩

/-- MinesweeperAI.make_safe_move (source lines 258 to 277): only when the
safes set has more than one element does it look for a safe cell not yet
played, adding it to moves_made before returning it. -/
def AI.make_safe_move (ai : AI) : Option Cell × AI :=
  if 1 < ai.safes.card then
    match (ai.safes.sort cellLE).find? (fun e => decide (e ∉ ai.moves_made)) with
    | some e => (some e, { ai with moves_made := insert e ai.moves_made })
    | none => (none, ai)
  else (none, ai)

/-- The deterministic engine operations, for statements about arbitrary
operation sequences. -/
inductive EngineOp where
  | observe (cell : Cell) (count : Int) (fuel : Nat)
  | mark_mine (cell : Cell)
  | mark_safe (cell : Cell)
  | safe_move
deriving DecidableEq

/-- Apply one engine operation to the state. -/
def applyOp (ai : AI) : EngineOp → AI
  | EngineOp.observe cell count fuel => ai.add_knowledge cell count fuel
  | EngineOp.mark_mine cell => ai.mark_mine cell
  | EngineOp.mark_safe cell => ai.mark_safe cell
  | EngineOp.safe_move => ai.make_safe_move.2

/-- Apply a sequence of engine operations. -/
def applyOps (ai : AI) (ops : List EngineOp) : AI := ops.foldl applyOp ai

/-- Minesweeper.nearby_mines (source lines 55 to 78), over a mine layout
given as a set of cells: the number of cells within one row and one
column of the given cell, other than the cell itself, that are in bounds
and carry a mine. -/
def grid3 (cell : Cell) : List Cell :=
  [(cell.1 - 1, cell.2 - 1), (cell.1 - 1, cell.2), (cell.1 - 1, cell.2 + 1),
   (cell.1, cell.2 - 1), (cell.1, cell.2), (cell.1, cell.2 + 1),
   (cell.1 + 1, cell.2 - 1), (cell.1 + 1, cell.2), (cell.1 + 1, cell.2 + 1)]

def nearby_mines (layout : Finset Cell) (height width : Int) (cell : Cell) : Int :=
  ((grid3 cell).filter (fun p =>
    decide (p ≠ cell ∧ 0 ≤ p.1 ∧ p.1 < height ∧ 0 ≤ p.2 ∧ p.2 < width ∧
      p ∈ layout))).length

/-! ### Shared lemmas about the derivation step -/

/-- Evaluation of one derivation step when the sentence at position y is
contained in the sentence at position x. -/
theorem tryPair_eval (K : List Sentence) (x y : Nat) (A B : Sentence)
    (hx : K.get? x = some B) (hy : K.get? y = some A)
    (hAB : A.cells ⊆ B.cells) :
    tryPair K x y =
      if (⟨B.cells \ A.cells, |B.count - A.count|⟩ : Sentence) ∈ K then (K, false)
      else (K ++ [⟨B.cells \ A.cells, |B.count - A.count|⟩], true) := by
  have h1 : A.cells \ B.cells = ∅ := Finset.sdiff_eq_empty_iff_subset.mpr hAB
  have h2 : (A.cells \ B.cells) ∪ (B.cells \ A.cells) = B.cells \ A.cells := by
    rw [h1, Finset.empty_union]
  have h3 : |A.count - B.count| = |B.count - A.count| := abs_sub_comm _ _
  simp only [tryPair, hx, hy, h2, h3, if_pos (Or.inl hAB)]

/-- Case analysis of one derivation step: either nothing happens, or a
new sentence derived from a contained pair is appended. -/
theorem tryPair_cases (K : List Sentence) (x y : Nat) :
    tryPair K x y = (K, false) ∨
    ∃ s1 s2, K.get? x = some s1 ∧ K.get? y = some s2 ∧
      (s2.cells ⊆ s1.cells ∨ s1.cells ⊆ s2.cells) ∧
      (⟨(s2.cells \ s1.cells) ∪ (s1.cells \ s2.cells), |s2.count - s1.count|⟩ : Sentence) ∉ K ∧
      tryPair K x y =
        (K ++ [⟨(s2.cells \ s1.cells) ∪ (s1.cells \ s2.cells), |s2.count - s1.count|⟩], true) := by
  cases hx : K.get? x with
  | none =>
    left; unfold tryPair; rw [hx]
  | some s1 =>
    cases hy : K.get? y with
    | none =>
      left; unfold tryPair; rw [hx, hy]
    | some s2 =>
      have hT : tryPair K x y =
          (if s2.cells ⊆ s1.cells ∨ s1.cells ⊆ s2.cells then
            if (⟨(s2.cells \ s1.cells) ∪ (s1.cells \ s2.cells),
                  |s2.count - s1.count|⟩ : Sentence) ∈ K
            then (K, false)
            else (K ++ [⟨(s2.cells \ s1.cells) ∪ (s1.cells \ s2.cells),
                  |s2.count - s1.count|⟩], true)
          else (K, false)) := by
        unfold tryPair; rw [hx, hy]
      rw [hT]
      by_cases hsub : s2.cells ⊆ s1.cells ∨ s1.cells ⊆ s2.cells
      · rw [if_pos hsub]
        by_cases hmem :
            (⟨(s2.cells \ s1.cells) ∪ (s1.cells \ s2.cells), |s2.count - s1.count|⟩ : Sentence) ∈ K
        · rw [if_pos hmem]; exact Or.inl rfl
        · rw [if_neg hmem]
          exact Or.inr ⟨s1, s2, rfl, rfl, hsub, hmem, rfl⟩
      · rw [if_neg hsub]; exact Or.inl rfl

/-- A derivation step that reports no change leaves the list unchanged. -/
theorem tryPair_false_unchanged (K : List Sentence) (x y : Nat)
    (h : (tryPair K x y).2 = false) : (tryPair K x y).1 = K := by
  rcases tryPair_cases K x y with hc | ⟨s1, s2, -, -, -, -, hc⟩
  · rw [hc]
  · rw [hc] at h; cases h

/-- A derivation step only appends to the list. -/
theorem tryPair_sup (K : List Sentence) (x y : Nat) :
    ∃ L, (tryPair K x y).1 = K ++ L := by
  rcases tryPair_cases K x y with hc | ⟨s1, s2, -, -, -, -, hc⟩
  · exact ⟨[], by rw [hc]; simp⟩
  · exact ⟨_, by rw [hc]⟩

/-- A derivation step preserves any sentence property that is closed
under forming the derived sentence of a contained pair. -/
theorem tryPair_preserve (P : Sentence → Prop)
    (hder : ∀ s1 s2, P s1 → P s2 →
      (s2.cells ⊆ s1.cells ∨ s1.cells ⊆ s2.cells) →
      P ⟨(s2.cells \ s1.cells) ∪ (s1.cells \ s2.cells), |s2.count - s1.count|⟩)
    (K : List Sentence) (x y : Nat) (hK : ∀ s ∈ K, P s) :
    ∀ s ∈ (tryPair K x y).1, P s := by
  rcases tryPair_cases K x y with hc | ⟨s1, s2, hx, hy, hsub, -, hc⟩
  · rw [hc]; exact hK
  · rw [hc]
    intro s hs
    rcases List.mem_append.mp hs with hs | hs
    · exact hK s hs
    · rcases List.mem_singleton.mp hs with rfl
      exact hder s1 s2 (hK s1 (List.get?_mem hx)) (hK s2 (List.get?_mem hy)) hsub

/-! ### Claim C1

The spec says a revealed cell is recorded in safes and that every cell of
moves_made is in safes.  The source adds the observed cell to moves_made
and calls Sentence.mark_safe on each sentence, but never adds the cell to
the safes set, contradicting step 2 of the docstring of add_knowledge. -/

/-- C1: after add_knowledge((0,0), 0) on a fresh engine, the observed
cell is in moves_made but not in safes, so moves_made is not contained
in safes and the observed cell was not recorded safe. -/
theorem C1_observed_cell_not_in_safes :
    ((0, 0) : Cell) ∈ ((initAI 8 8).add_knowledge (0, 0) 0 1).moves_made ∧
    ((0, 0) : Cell) ∉ ((initAI 8 8).add_knowledge (0, 0) 0 1).safes := by
  decide

/-! ### Claim C2

The source guards make_safe_move with len(safes) > 1, so with exactly one
known safe unplayed cell it returns None even though a safe move exists.
The state below is reached by observing cell (8,8) with count 0 on a
10 by 10 board: the only neighbour inside the hard coded 0..7 box is
(7,7), so safes is the singleton containing (7,7). -/

/-- C2: a reachable state in which (7,7) is known safe and unplayed, yet
make_safe_move returns none. -/
theorem C2_safe_move_misses_singleton :
    (((initAI 10 10).add_knowledge (8, 8) 0 1).make_safe_move.1 = none) ∧
    ((7, 7) : Cell) ∈ ((initAI 10 10).add_knowledge (8, 8) 0 1).safes ∧
    ((7, 7) : Cell) ∉ ((initAI 10 10).add_knowledge (8, 8) 0 1).moves_made := by
  decide

/-! ### Claim C3

The count equals zero branch checks neighbour coordinates against the
constants 0 and 7 (source line 245) instead of the stored board height
and width.  On a 9 by 9 board, cell (8,8) has in bounds neighbour (7,8),
which is not added to safes. -/

/-- C3: after add_knowledge((8,8), 0) on a 9 by 9 board, the in bounds
neighbour (7,8) is missing from safes while (7,7) is present. -/
theorem C3_inbounds_neighbour_missing :
    ((7, 8) : Cell) ∉ ((initAI 9 9).add_knowledge (8, 8) 0 1).safes ∧
    ((7, 7) : Cell) ∈ ((initAI 9 9).add_knowledge (8, 8) 0 1).safes := by
  decide

/-! ### Claim C4

The count not zero branch (source line 198) builds the new sentence from
all eight neighbour coordinates without intersecting with the board
bounds, so the appended sentence can contain cells outside the board. -/

/-- C4: after add_knowledge((0,0), 1) on a fresh 8 by 8 engine the
appended sentence is over the full eight cell neighbourhood and contains
the out of bounds cell (-1,-1). -/
theorem C4_sentence_contains_out_of_bounds :
    ((initAI 8 8).add_knowledge (0, 0) 1 1).knowledge = [⟨nbhd (0, 0), 1⟩] ∧
    ((-1, -1) : Cell) ∈ nbhd (0, 0) := by
  decide

/-! ### Claim C6

The closure loop is skipped when the count is zero and when the
knowledge list has exactly one sentence (the while condition on source
line 200).  Observing (0,0) with count 0 and then (0,2) with count 1
leaves a single sentence that still contains the safe cell (0,1), so the
knowledge base is not at a closure fixed point. -/

/-- C6: after the two observations, some sentence of the knowledge base
contains a cell of the safes set. -/
theorem C6_not_fixed_point :
    ∃ s ∈ (((initAI 8 8).add_knowledge (0, 0) 0 1).add_knowledge (0, 2) 1 1).knowledge,
      ∃ c ∈ s.cells,
        c ∈ (((initAI 8 8).add_knowledge (0, 0) 0 1).add_knowledge (0, 2) 1 1).safes := by
  decide

/-! ### Claim C5

The derivation step of the closure: for sentences at positions x and y
whose cell sets are in a containment relation, the appended sentence is
over the set difference with the absolute count difference, appended
exactly when not already present. -/

/-- C5: if the sentence at position x is B, the sentence at position y is
A, and the cells of A are contained in those of B, then the derivation
step appends the sentence with cells B.cells minus A.cells and count the
absolute difference of the counts, and only when no equal sentence is
already in the knowledge list. -/
theorem C5_subsumption_step (K : List Sentence) (x y : Nat) (A B : Sentence)
    (hx : K.get? x = some B) (hy : K.get? y = some A)
    (hAB : A.cells ⊆ B.cells) :
    tryPair K x y =
      if (⟨B.cells \ A.cells, |B.count - A.count|⟩ : Sentence) ∈ K then (K, false)
      else (K ++ [⟨B.cells \ A.cells, |B.count - A.count|⟩], true) :=
  tryPair_eval K x y A B hx hy hAB

/-- C5 witness: a concrete derivation step, with the contained pair at
positions 0 and 1, appending the difference sentence with count 0. -/
theorem C5_subsumption_step_witness :
    tryPair [⟨{(0, 0), (0, 1)}, 1⟩, ⟨{(0, 0)}, 1⟩] 0 1 =
      ([⟨{(0, 0), (0, 1)}, 1⟩, ⟨{(0, 0)}, 1⟩] ++ [⟨{(0, 1)}, 0⟩], true) := by
  have h := C5_subsumption_step [⟨{(0, 0), (0, 1)}, 1⟩, ⟨{(0, 0)}, 1⟩] 0 1
      ⟨{(0, 0)}, 1⟩ ⟨{(0, 0), (0, 1)}, 1⟩ rfl rfl (by decide)
  rw [h]
  decide

/-! ### Claim C10: monotonicity of moves_made, safes, mines -/

/-- The final mine scan only adds cells to the accumulator. -/
theorem mineScan_subset (K : List Sentence) (acc : Finset Cell) :
    acc ⊆ mineScan K acc := by
  induction K generalizing acc with
  | nil => simp [mineScan]
  | cons s K ih =>
    have hstep : acc ⊆ (if ((s.cells.card : Int) = s.count) then acc ∪ s.cells else acc) := by
      split
      · exact Finset.subset_union_left
      · exact Finset.Subset.refl acc
    exact hstep.trans (ih _)

/-- add_knowledge only adds to the three tracked sets. -/
theorem add_knowledge_mono (ai : AI) (cell : Cell) (count : Int) (fuel : Nat) :
    ai.moves_made ⊆ (ai.add_knowledge cell count fuel).moves_made ∧
    ai.safes ⊆ (ai.add_knowledge cell count fuel).safes ∧
    ai.mines ⊆ (ai.add_knowledge cell count fuel).mines := by
  unfold AI.add_knowledge
  split
  · exact ⟨Finset.subset_insert _ _, Finset.Subset.refl _, mineScan_subset _ _⟩
  · exact ⟨Finset.subset_insert _ _, Finset.subset_union_left, mineScan_subset _ _⟩

/-- make_safe_move only adds to moves_made and leaves safes and mines
unchanged. -/
theorem make_safe_move_mono (ai : AI) :
    ai.moves_made ⊆ ai.make_safe_move.2.moves_made ∧
    ai.make_safe_move.2.safes = ai.safes ∧
    ai.make_safe_move.2.mines = ai.mines := by
  unfold AI.make_safe_move
  split
  · split
    · exact ⟨Finset.subset_insert _ _, rfl, rfl⟩
    · exact ⟨Finset.Subset.refl _, rfl, rfl⟩
  · exact ⟨Finset.Subset.refl _, rfl, rfl⟩

/-- Every single engine operation only grows the three tracked sets. -/
theorem applyOp_mono (ai : AI) (op : EngineOp) :
    ai.moves_made ⊆ (applyOp ai op).moves_made ∧
    ai.safes ⊆ (applyOp ai op).safes ∧
    ai.mines ⊆ (applyOp ai op).mines := by
  cases op with
  | observe cell count fuel => exact add_knowledge_mono ai cell count fuel
  | mark_mine cell =>
    exact ⟨Finset.Subset.refl _, Finset.Subset.refl _, Finset.subset_insert _ _⟩
  | mark_safe cell =>
    exact ⟨Finset.Subset.refl _, Finset.subset_insert _ _, Finset.Subset.refl _⟩
  | safe_move =>
    have h := make_safe_move_mono ai
    exact ⟨h.1, le_of_eq h.2.1.symm, le_of_eq h.2.2.symm⟩

/-- C10: across any sequence of engine operations, moves_made, safes and
mines only grow; no cell is ever removed from them. -/
theorem C10_sets_append_only (ai : AI) (ops : List EngineOp) :
    ai.moves_made ⊆ (applyOps ai ops).moves_made ∧
    ai.safes ⊆ (applyOps ai ops).safes ∧
    ai.mines ⊆ (applyOps ai ops).mines := by
  induction ops generalizing ai with
  | nil => exact ⟨Finset.Subset.refl _, Finset.Subset.refl _, Finset.Subset.refl _⟩
  | cons op ops ih =>
    have h1 := applyOp_mono ai op
    have h2 := ih (applyOp ai op)
    exact ⟨h1.1.trans h2.1, h1.2.1.trans h2.2.1, h1.2.2.trans h2.2.2⟩

/-! ### Loop lemmas for the subsumption pass -/

/-- Once the change flag is set it stays set through the inner loop. -/
theorem innerLoop_true (x : Nat) (ys : List Nat) (K : List Sentence) :
    (innerLoop x ys K true).2 = true := by
  induction ys generalizing K with
  | nil => rfl
  | cons y ys ih =>
    simp only [innerLoop, Bool.true_or]
    exact ih _

/-- If the inner loop reports no change then nothing changed: the flag
came in false, the list is unchanged, and every step reported false. -/
theorem innerLoop_false (x : Nat) (ys : List Nat) (K : List Sentence) (ch : Bool)
    (h : (innerLoop x ys K ch).2 = false) :
    ch = false ∧ (innerLoop x ys K ch).1 = K ∧ ∀ y ∈ ys, (tryPair K x y).2 = false := by
  induction ys generalizing K ch with
  | nil =>
    exact ⟨h, rfl, by intro y hy; cases hy⟩
  | cons y ys ih =>
    simp only [innerLoop] at h ⊢
    obtain ⟨hch2, hK2, hall⟩ := ih _ _ h
    have hch : ch = false := by
      cases hc : ch
      · rfl
      · rw [hc] at hch2; simp at hch2
    have hstep : (tryPair K x y).2 = false := by
      cases hc : (tryPair K x y).2
      · rfl
      · rw [hc] at hch2; simp at hch2
    have hKeq : (tryPair K x y).1 = K := tryPair_false_unchanged K x y hstep
    rw [hKeq] at hall
    refine ⟨hch, hK2.trans hKeq, ?_⟩
    intro y2 hy2
    rcases List.mem_cons.mp hy2 with rfl | hy2
    · exact hstep
    · exact hall y2 hy2

/-- Once the change flag is set it stays set through the outer loop. -/
theorem outerLoop_true (xs : List Nat) (K : List Sentence) :
    (outerLoop xs K true).2 = true := by
  induction xs generalizing K with
  | nil => rfl
  | cons x xs ih =>
    simp only [outerLoop]
    have h1 : (innerLoop x (List.range K.length) K true).2 = true := innerLoop_true _ _ _
    rw [h1]
    exact ih _

/-- If the outer loop reports no change then nothing changed anywhere. -/
theorem outerLoop_false (xs : List Nat) (K : List Sentence) (ch : Bool)
    (h : (outerLoop xs K ch).2 = false) :
    ch = false ∧ (outerLoop xs K ch).1 = K ∧
      ∀ x ∈ xs, ∀ y ∈ List.range K.length, (tryPair K x y).2 = false := by
  induction xs generalizing K ch with
  | nil =>
    exact ⟨h, rfl, by intro x hx; cases hx⟩
  | cons x xs ih =>
    simp only [outerLoop] at h ⊢
    obtain ⟨hch2, hK2, hall⟩ := ih _ _ h
    obtain ⟨hch, hK1, hsteps⟩ := innerLoop_false _ _ _ _ hch2
    rw [hK1] at hall
    refine ⟨hch, hK2.trans hK1, ?_⟩
    intro x2 hx2
    rcases List.mem_cons.mp hx2 with rfl | hx2
    · exact hsteps
    · exact hall x2 hx2

/-- If a full subsumption pass reports no change then every pair step on
the unchanged list reported no change. -/
theorem subsumptionPass_false (K : List Sentence)
    (h : (subsumptionPass K).2 = false) :
    ∀ x ∈ List.range K.length, ∀ y ∈ List.range K.length, (tryPair K x y).2 = false :=
  (outerLoop_false _ _ _ h).2.2

/-- The inner loop only appends to the list. -/
theorem innerLoop_sup (x : Nat) (ys : List Nat) (K : List Sentence) (ch : Bool) :
    ∃ L, (innerLoop x ys K ch).1 = K ++ L := by
  induction ys generalizing K ch with
  | nil => exact ⟨[], by simp [innerLoop]⟩
  | cons y ys ih =>
    simp only [innerLoop]
    obtain ⟨L1, hL1⟩ := tryPair_sup K x y
    obtain ⟨L2, hL2⟩ := ih (tryPair K x y).1 (ch || (tryPair K x y).2)
    exact ⟨L1 ++ L2, by rw [hL2, hL1, List.append_assoc]⟩

/-- The outer loop only appends to the list. -/
theorem outerLoop_sup (xs : List Nat) (K : List Sentence) (ch : Bool) :
    ∃ L, (outerLoop xs K ch).1 = K ++ L := by
  induction xs generalizing K ch with
  | nil => exact ⟨[], by simp [outerLoop]⟩
  | cons x xs ih =>
    simp only [outerLoop]
    obtain ⟨L1, hL1⟩ := innerLoop_sup x (List.range K.length) K ch
    obtain ⟨L2, hL2⟩ :=
      ih (innerLoop x (List.range K.length) K ch).1 (innerLoop x (List.range K.length) K ch).2
    exact ⟨L1 ++ L2, by rw [hL2, hL1, List.append_assoc]⟩

/-- Every sentence of the list survives a subsumption pass. -/
theorem subsumptionPass_mem (K : List Sentence) (s : Sentence) (h : s ∈ K) :
    s ∈ (subsumptionPass K).1 := by
  obtain ⟨L, hL⟩ := outerLoop_sup (List.range K.length) K false
  unfold subsumptionPass
  rw [hL]
  exact List.mem_append_left _ h

/-- The inner loop preserves any sentence property closed under the
derivation of a contained pair. -/
theorem innerLoop_preserve (P : Sentence → Prop)
    (hder : ∀ s1 s2, P s1 → P s2 →
      (s2.cells ⊆ s1.cells ∨ s1.cells ⊆ s2.cells) →
      P ⟨(s2.cells \ s1.cells) ∪ (s1.cells \ s2.cells), |s2.count - s1.count|⟩)
    (x : Nat) (ys : List Nat) (K : List Sentence) (ch : Bool) (hK : ∀ s ∈ K, P s) :
    ∀ s ∈ (innerLoop x ys K ch).1, P s := by
  induction ys generalizing K ch with
  | nil => exact hK
  | cons y ys ih =>
    simp only [innerLoop]
    exact ih _ _ (tryPair_preserve P hder K x y hK)

/-- The outer loop preserves any sentence property closed under the
derivation of a contained pair. -/
theorem outerLoop_preserve (P : Sentence → Prop)
    (hder : ∀ s1 s2, P s1 → P s2 →
      (s2.cells ⊆ s1.cells ∨ s1.cells ⊆ s2.cells) →
      P ⟨(s2.cells \ s1.cells) ∪ (s1.cells \ s2.cells), |s2.count - s1.count|⟩)
    (xs : List Nat) (K : List Sentence) (ch : Bool) (hK : ∀ s ∈ K, P s) :
    ∀ s ∈ (outerLoop xs K ch).1, P s := by
  induction xs generalizing K ch with
  | nil => exact hK
  | cons x xs ih =>
    simp only [outerLoop]
    exact ih _ _ (innerLoop_preserve P hder x (List.range K.length) K ch hK)

/-- A subsumption pass preserves any sentence property closed under the
derivation of a contained pair. -/
theorem subsumptionPass_preserve (P : Sentence → Prop)
    (hder : ∀ s1 s2, P s1 → P s2 →
      (s2.cells ⊆ s1.cells ∨ s1.cells ⊆ s2.cells) →
      P ⟨(s2.cells \ s1.cells) ∪ (s1.cells \ s2.cells), |s2.count - s1.count|⟩)
    (K : List Sentence) (hK : ∀ s ∈ K, P s) :
    ∀ s ∈ (subsumptionPass K).1, P s :=
  outerLoop_preserve P hder (List.range K.length) K false hK

/-! ### Claim C9: reachable non-termination of the closure loop

Observing cell (0,2) with count 8 marks all eight of its neighbours as
mines; observing the same cell again with count 1 then enters the while
loop, whose first iteration leaves sentences over the empty cell set with
counts 0, -7, 0, 7 and -2 (the mine cleanup subtracted 8 from counts 1
and 6).  From such a state every later pass derives a sentence over the
empty set whose count strictly exceeds the current maximum, obtained from
the pair of a negative count sentence and a maximal count sentence, so
the change flag is set on every pass and the loop never exits. -/

/-- A nonempty sentence list has an entry of maximal count. -/
theorem exists_max_count (K : List Sentence) (h : K ≠ []) :
    ∃ m ∈ K, ∀ t ∈ K, t.count ≤ m.count := by
  induction K with
  | nil => exact absurd rfl h
  | cons s K ih =>
    by_cases hK : K = []
    · subst hK
      refine ⟨s, List.mem_cons_self _ _, ?_⟩
      intro t ht
      rcases List.mem_cons.mp ht with rfl | ht
      · exact le_refl _
      · cases ht
    · obtain ⟨m, hm, hb⟩ := ih hK
      by_cases hc : m.count ≤ s.count
      · refine ⟨s, List.mem_cons_self _ _, ?_⟩
        intro t ht
        rcases List.mem_cons.mp ht with rfl | ht
        · exact le_refl _
        · exact (hb t ht).trans hc
      · refine ⟨m, List.mem_cons_of_mem _ hm, ?_⟩
        intro t ht
        rcases List.mem_cons.mp ht with rfl | ht
        · exact le_of_not_le hc
        · exact hb t ht

/-- The divergent loop state: every sentence is over the empty cell set,
some count is negative, and some count is nonnegative. -/
def BadK (K : List Sentence) : Prop :=
  (∀ s ∈ K, s.cells = ∅) ∧ (∃ s ∈ K, s.count < 0) ∧ (∃ s ∈ K, 0 ≤ s.count)

instance : DecidablePred BadK := fun K => by
  unfold BadK; infer_instance

/-- A divergent state never has exactly one sentence. -/
theorem badK_length (K : List Sentence) (h : BadK K) : K.length ≠ 1 := by
  obtain ⟨-, ⟨sn, hsn, hneg⟩, ⟨sp, hsp, hpos⟩⟩ := h
  intro hlen
  obtain ⟨a, rfl⟩ := List.length_eq_one.mp hlen
  rcases List.mem_singleton.mp hsn with rfl
  rcases List.mem_singleton.mp hsp with rfl
  omega

/-- From a divergent state, the subsumption pass always finds something
new to append: the pair of a negative count sentence and a maximal count
sentence derives an empty cell sentence with a count strictly above every
count already present. -/
theorem badK_pass_change (K : List Sentence) (h : BadK K) :
    (subsumptionPass K).2 = true := by
  obtain ⟨hall, ⟨sn, hsn, hneg⟩, ⟨sp, hsp, hpos⟩⟩ := h
  by_contra hcon
  rw [Bool.not_eq_true] at hcon
  have hpairs := subsumptionPass_false K hcon
  obtain ⟨m, hm, hb⟩ := exists_max_count K (by rintro rfl; cases hsn)
  obtain ⟨xn, hxn⟩ := List.get?_of_mem hsn
  obtain ⟨ym, hym⟩ := List.get?_of_mem hm
  have hxlt : xn < K.length := (List.get?_eq_some.mp hxn).1
  have hylt : ym < K.length := (List.get?_eq_some.mp hym).1
  have hflag := hpairs xn (List.mem_range.mpr hxlt) ym (List.mem_range.mpr hylt)
  have hAB : m.cells ⊆ sn.cells := by
    rw [hall m hm]
    exact Finset.empty_subset _
  have heval := tryPair_eval K xn ym m sn hxn hym hAB
  have hcount : |sn.count - m.count| = m.count - sn.count := by
    have hmp : 0 ≤ m.count := le_trans hpos (hb sp hsp)
    rw [abs_sub_comm, abs_of_nonneg (by omega)]
  have hnotmem :
      (⟨sn.cells \ m.cells, |sn.count - m.count|⟩ : Sentence) ∉ K := by
    intro hmem
    have hle := hb _ hmem
    simp only [hcount] at hle
    have hmp : 0 ≤ m.count := le_trans hpos (hb sp hsp)
    omega
  rw [heval, if_neg hnotmem] at hflag
  cases hflag

/-- The safe cell cleanup does nothing to sentences over the empty set. -/
theorem cleanupSafes_id_of_empty (safes : Finset Cell) (K : List Sentence)
    (h : ∀ s ∈ K, s.cells = ∅) : cleanupSafes safes K = K := by
  unfold cleanupSafes
  have hpt : ∀ s ∈ K, ({ cells := s.cells \ safes, count := s.count } : Sentence) = s := by
    intro s hs
    have hc := h s hs
    cases s with
    | mk cs cnt =>
      simp only at hc
      subst hc
      simp [Finset.empty_sdiff]
  rw [List.map_congr_left hpt]
  exact List.map_id' K

/-- The mine cell cleanup does nothing to sentences over the empty set. -/
theorem cleanupMines_id_of_empty (mines : Finset Cell) (K : List Sentence)
    (h : ∀ s ∈ K, s.cells = ∅) : cleanupMines mines K = K := by
  unfold cleanupMines
  have hpt : ∀ s ∈ K,
      ({ cells := s.cells \ mines,
         count := s.count - ((s.cells ∩ mines).card : Int) } : Sentence) = s := by
    intro s hs
    have hc := h s hs
    cases s with
    | mk cs cnt =>
      simp only at hc
      subst hc
      simp [Finset.empty_sdiff, Finset.empty_inter]
  rw [List.map_congr_left hpt]
  exact List.map_id' K

/-- A subsumption pass keeps all cell sets empty: the derived sentence of
two empty cell sentences is over the empty set. -/
theorem badK_pass_preserve (K : List Sentence) (h : ∀ s ∈ K, s.cells = ∅) :
    ∀ s ∈ (subsumptionPass K).1, s.cells = ∅ := by
  refine subsumptionPass_preserve (fun s => s.cells = ∅) ?_ K h
  intro s1 s2 h1 h2 hsub
  simp [h1, h2]

/-- One full loop body maps a divergent state to a divergent state. -/
theorem badK_step (safes mines : Finset Cell) (K : List Sentence) (h : BadK K) :
    BadK (cleanupMines mines (cleanupSafes safes (subsumptionPass K).1)) := by
  obtain ⟨hall, ⟨sn, hsn, hneg⟩, ⟨sp, hsp, hpos⟩⟩ := h
  have hall2 := badK_pass_preserve K hall
  rw [cleanupSafes_id_of_empty safes _ hall2, cleanupMines_id_of_empty mines _ hall2]
  exact ⟨hall2, ⟨sn, subsumptionPass_mem K sn hsn, hneg⟩,
    ⟨sp, subsumptionPass_mem K sp hsp, hpos⟩⟩

/-- From a divergent state the closure loop consumes all its fuel without
ever reaching its exit condition. -/
theorem badK_no_exit (fuel : Nat) (safes mines : Finset Cell) (K : List Sentence)
    (h : BadK K) : (closureLoop fuel safes mines K).2 = false := by
  induction fuel generalizing K with
  | zero => rfl
  | succ fuel ih =>
    have hchange := badK_pass_change K h
    simp only [closureLoop]
    rw [if_neg (badK_length K h), hchange, if_pos rfl]
    exact ih _ (badK_step safes mines K h)

/-- The engine state after the first observation of the divergent trace:
a fresh 8 by 8 engine observing cell (0,2) with count 8.  All eight
neighbours of (0,2) become mines. -/
def aiDiv : AI := (initAI 8 8).add_knowledge (0, 2) 8 1

/-- C9: the closure loop of the second call add_knowledge((0,2), 1) never
terminates: for every fuel value it runs out of fuel instead of reaching
its exit condition. -/
theorem C9_closure_never_terminates (fuel : Nat) :
    (closureLoop fuel aiDiv.safes aiDiv.mines (closureInput aiDiv (0, 2) 1)).2 = false := by
  match fuel with
  | 0 => rfl
  | Nat.succ fuel =>
    have hlen : ¬ ((closureInput aiDiv (0, 2) 1).length = 1) := by decide
    have hchange : (subsumptionPass (closureInput aiDiv (0, 2) 1)).2 = true := by decide
    have hbad : BadK (cleanupMines aiDiv.mines
        (cleanupSafes aiDiv.safes (subsumptionPass (closureInput aiDiv (0, 2) 1)).1)) := by
      decide
    simp only [closureLoop]
    rw [if_neg hlen, hchange, if_pos rfl]
    exact badK_no_exit fuel _ _ _ hbad

/-! ### Soundness with respect to a fixed mine layout

For claims C7 and C8 the observations are consistent with a fixed mine
layout, given as the set of mine cells.  A sentence is true for the
layout when its count equals the number of its cells that are mines;
every internal step of the engine preserves truth of all sentences,
soundness of the mines set and soundness of the safes set. -/

/-- Truth of a sentence for a mine layout: the count is exactly the
number of cells of the sentence that carry a mine. -/
def SentTrue (layout : Finset Cell) (s : Sentence) : Prop :=
  s.count = ((s.cells.filter (fun p => p ∈ layout)).card : Int)

instance (layout : Finset Cell) : DecidablePred (SentTrue layout) := fun s => by
  unfold SentTrue; infer_instance

/-- Removing a cell that is not a mine does not change the mine count of
a cell set. -/
theorem filter_erase_of_not_mem (layout : Finset Cell) (cs : Finset Cell) (c : Cell)
    (hc : c ∉ layout) :
    (cs.erase c).filter (fun p => p ∈ layout) = cs.filter (fun p => p ∈ layout) := by
  ext p
  simp only [Finset.mem_filter, Finset.mem_erase]
  constructor
  · rintro ⟨⟨-, h1⟩, h2⟩
    exact ⟨h1, h2⟩
  · rintro ⟨h1, h2⟩
    exact ⟨⟨fun he => hc (he ▸ h2), h1⟩, h2⟩

/-- Sentence.mark_safe with a cell that is not a mine preserves truth. -/
theorem sentTrue_mark_safe (layout : Finset Cell) (s : Sentence) (c : Cell)
    (hc : c ∉ layout) (h : SentTrue layout s) : SentTrue layout (s.mark_safe c) := by
  unfold Sentence.mark_safe
  split
  · unfold SentTrue at h ⊢
    simp only
    rw [filter_erase_of_not_mem layout s.cells c hc]
    exact h
  · exact h

/-- Sentence.mark_mine with a cell that is a mine preserves truth. -/
theorem sentTrue_mark_mine (layout : Finset Cell) (s : Sentence) (c : Cell)
    (hc : c ∈ layout) (h : SentTrue layout s) : SentTrue layout (s.mark_mine c) := by
  unfold Sentence.mark_mine
  split
  case isTrue hmem =>
    unfold SentTrue at h ⊢
    simp only
    have h1 : (s.cells.erase c).filter (fun p => p ∈ layout) =
        (s.cells.filter (fun p => p ∈ layout)).erase c :=
      Finset.filter_erase (p := fun p => p ∈ layout) c s.cells
    have h2 : c ∈ s.cells.filter (fun p => p ∈ layout) :=
      Finset.mem_filter.mpr ⟨hmem, hc⟩
    have h3 : 0 < (s.cells.filter (fun p => p ∈ layout)).card :=
      Finset.card_pos.mpr ⟨c, h2⟩
    rw [h1, Finset.card_erase_of_mem h2]
    rw [Int.ofNat_sub h3]
    omega
  case isFalse => exact h

/-- The one direction subsumption derivation preserves truth: if the
cells of A are contained in those of B, the sentence over B minus A with
the absolute count difference is true. -/
theorem sentTrue_diff (layout : Finset Cell) (A B : Sentence)
    (hA : SentTrue layout A) (hB : SentTrue layout B) (hAB : A.cells ⊆ B.cells) :
    SentTrue layout ⟨B.cells \ A.cells, |B.count - A.count|⟩ := by
  unfold SentTrue at hA hB ⊢
  simp only
  have hfil : (B.cells \ A.cells).filter (fun p => p ∈ layout) =
      B.cells.filter (fun p => p ∈ layout) \ A.cells.filter (fun p => p ∈ layout) := by
    ext p
    simp only [Finset.mem_filter, Finset.mem_sdiff]
    constructor
    · rintro ⟨⟨h1, h2⟩, h3⟩
      exact ⟨⟨h1, h3⟩, fun hcon => h2 hcon.1⟩
    · rintro ⟨⟨h1, h3⟩, h2⟩
      exact ⟨⟨h1, fun hcon => h2 ⟨hcon, h3⟩⟩, h3⟩
  have hsub : A.cells.filter (fun p => p ∈ layout) ⊆ B.cells.filter (fun p => p ∈ layout) :=
    Finset.filter_subset_filter _ hAB
  have hle : (A.cells.filter (fun p => p ∈ layout)).card ≤
      (B.cells.filter (fun p => p ∈ layout)).card := Finset.card_le_card hsub
  rw [hfil, Finset.card_sdiff hsub, Int.ofNat_sub hle, hA, hB]
  rw [abs_of_nonneg (by omega)]

/-- The derivation of any contained pair preserves truth. -/
theorem sentTrue_derived (layout : Finset Cell) (s1 s2 : Sentence)
    (h1 : SentTrue layout s1) (h2 : SentTrue layout s2)
    (hsub : s2.cells ⊆ s1.cells ∨ s1.cells ⊆ s2.cells) :
    SentTrue layout
      ⟨(s2.cells \ s1.cells) ∪ (s1.cells \ s2.cells), |s2.count - s1.count|⟩ := by
  rcases hsub with hsub | hsub
  · have he : s2.cells \ s1.cells = ∅ := Finset.sdiff_eq_empty_iff_subset.mpr hsub
    have hu : (s2.cells \ s1.cells) ∪ (s1.cells \ s2.cells) = s1.cells \ s2.cells := by
      rw [he, Finset.empty_union]
    have := sentTrue_diff layout s2 s1 h2 h1 hsub
    rw [hu, abs_sub_comm]
    exact this
  · have he : s1.cells \ s2.cells = ∅ := Finset.sdiff_eq_empty_iff_subset.mpr hsub
    have hu : (s2.cells \ s1.cells) ∪ (s1.cells \ s2.cells) = s2.cells \ s1.cells := by
      rw [he, Finset.union_empty]
    have := sentTrue_diff layout s1 s2 h1 h2 hsub
    rw [hu]
    exact this

/-- The safe cell cleanup preserves truth when every recorded safe cell
really is safe. -/
theorem sentTrue_cleanup_safe (layout safes : Finset Cell)
    (hsafes : ∀ c ∈ safes, c ∉ layout) (s : Sentence) (h : SentTrue layout s) :
    SentTrue layout ⟨s.cells \ safes, s.count⟩ := by
  unfold SentTrue at h ⊢
  simp only
  have hfil : (s.cells \ safes).filter (fun p => p ∈ layout) =
      s.cells.filter (fun p => p ∈ layout) \ safes := by
    ext p
    simp only [Finset.mem_filter, Finset.mem_sdiff]
    constructor
    · rintro ⟨⟨h1, h2⟩, h3⟩
      exact ⟨⟨h1, h3⟩, h2⟩
    · rintro ⟨⟨h1, h3⟩, h2⟩
      exact ⟨⟨h1, h2⟩, h3⟩
  have hdis : Disjoint (s.cells.filter (fun p => p ∈ layout)) safes := by
    rw [Finset.disjoint_left]
    intro p hp hps
    exact hsafes p hps (Finset.mem_filter.mp hp).2
  rw [hfil, Finset.sdiff_eq_self_iff_disjoint.mpr hdis]
  exact h

/-- The mine cell cleanup preserves truth when every recorded mine cell
really is a mine. -/
theorem sentTrue_cleanup_mine (layout mines : Finset Cell)
    (hmines : ∀ c ∈ mines, c ∈ layout) (s : Sentence) (h : SentTrue layout s) :
    SentTrue layout ⟨s.cells \ mines, s.count - ((s.cells ∩ mines).card : Int)⟩ := by
  unfold SentTrue at h ⊢
  simp only
  have hfil : (s.cells \ mines).filter (fun p => p ∈ layout) =
      s.cells.filter (fun p => p ∈ layout) \ (s.cells ∩ mines) := by
    ext p
    simp only [Finset.mem_filter, Finset.mem_sdiff, Finset.mem_inter]
    constructor
    · rintro ⟨⟨h1, h2⟩, h3⟩
      exact ⟨⟨h1, h3⟩, fun hcon => h2 hcon.2⟩
    · rintro ⟨⟨h1, h3⟩, h2⟩
      exact ⟨⟨h1, fun hcon => h2 ⟨h1, hcon⟩⟩, h3⟩
  have hsub : s.cells ∩ mines ⊆ s.cells.filter (fun p => p ∈ layout) := by
    intro p hp
    have hp2 := Finset.mem_inter.mp hp
    exact Finset.mem_filter.mpr ⟨hp2.1, hmines p hp2.2⟩
  have hle := Finset.card_le_card hsub
  rw [hfil, Finset.card_sdiff hsub, Int.ofNat_sub hle, h]

/-! ### Neighbourhood lemmas -/

/-- The observed cell is not among its own eight neighbours. -/
theorem cell_not_mem_nbhdList (cell : Cell) : cell ∉ nbhdList cell := by
  obtain ⟨a, b⟩ := cell
  intro h
  simp only [nbhdList, List.mem_cons, List.not_mem_nil, or_false, Prod.mk.injEq] at h
  omega

/-- A cell of the three by three grid other than the centre is one of
the eight neighbours, and conversely. -/
theorem mem_grid3_iff (cell p : Cell) :
    p ∈ grid3 cell ↔ p = cell ∨ p ∈ nbhdList cell := by
  simp only [grid3, nbhdList, List.mem_cons, List.not_mem_nil, or_false]
  tauto

/-- The three by three grid list has no duplicates. -/
theorem grid3_nodup (cell : Cell) : (grid3 cell).Nodup := by
  obtain ⟨a, b⟩ := cell
  simp [grid3, Prod.ext_iff]
  omega

/-- The neighbour list has no duplicates. -/
theorem nbhdList_nodup (cell : Cell) : (nbhdList cell).Nodup := by
  obtain ⟨a, b⟩ := cell
  simp [nbhdList, Prod.ext_iff]
  omega

/-- When the layout lies inside the board, the neighbour mine count of a
cell equals the number of mines in its eight cell neighbourhood. -/
theorem nearby_mines_eq (layout : Finset Cell) (h w : Int) (cell : Cell)
    (hb : ∀ p ∈ layout, 0 ≤ p.1 ∧ p.1 < h ∧ 0 ≤ p.2 ∧ p.2 < w) :
    nearby_mines layout h w cell =
      (((nbhd cell).filter (fun p => p ∈ layout)).card : Int) := by
  have hq1 : ((grid3 cell).filter (fun p =>
      decide (p ≠ cell ∧ 0 ≤ p.1 ∧ p.1 < h ∧ 0 ≤ p.2 ∧ p.2 < w ∧ p ∈ layout))).Nodup :=
    (grid3_nodup cell).filter _
  have hq2 : ((nbhdList cell).filter (fun p => decide (p ∈ layout))).Nodup :=
    (nbhdList_nodup cell).filter _
  have hfin : ((grid3 cell).filter (fun p =>
      decide (p ≠ cell ∧ 0 ≤ p.1 ∧ p.1 < h ∧ 0 ≤ p.2 ∧ p.2 < w ∧ p ∈ layout))).toFinset =
      ((nbhdList cell).filter (fun p => decide (p ∈ layout))).toFinset := by
    ext p
    simp only [List.mem_toFinset, List.mem_filter, decide_eq_true_eq]
    constructor
    · rintro ⟨hg, hne, -, -, -, -, hl⟩
      rcases (mem_grid3_iff cell p).mp hg with rfl | hn
      · exact absurd rfl hne
      · exact ⟨hn, hl⟩
    · rintro ⟨hn, hl⟩
      obtain ⟨hb1, hb2, hb3, hb4⟩ := hb p hl
      refine ⟨(mem_grid3_iff cell p).mpr (Or.inr hn), ?_, hb1, hb2, hb3, hb4, hl⟩
      intro he
      exact cell_not_mem_nbhdList cell (he ▸ hn)
  have hfin2 : (nbhd cell).filter (fun p => p ∈ layout) =
      ((nbhdList cell).filter (fun p => decide (p ∈ layout))).toFinset := by
    ext p
    simp only [nbhd, Finset.mem_filter, List.mem_toFinset, List.mem_filter, decide_eq_true_eq]
  have hlen : ((grid3 cell).filter (fun p =>
      decide (p ≠ cell ∧ 0 ≤ p.1 ∧ p.1 < h ∧ 0 ≤ p.2 ∧ p.2 < w ∧ p ∈ layout))).length =
      ((nbhd cell).filter (fun p => p ∈ layout)).card := by
    rw [← List.toFinset_card_of_nodup hq1, hfin, List.toFinset_card_of_nodup hq2, hfin2,
      List.toFinset_card_of_nodup hq2]
  unfold nearby_mines
  omega

/-! ### The engine state invariant -/

/-- Invariant of the engine state for a mine layout: every sentence is
true, every recorded mine is a mine, every recorded safe cell is not. -/
def EngineInv (layout : Finset Cell) (ai : AI) : Prop :=
  (∀ s ∈ ai.knowledge, SentTrue layout s) ∧
  (∀ c ∈ ai.mines, c ∈ layout) ∧
  (∀ c ∈ ai.safes, c ∉ layout)

/-- Truth of the freshly appended neighbourhood sentence. -/
theorem sentTrue_new (layout : Finset Cell) (h w : Int) (cell : Cell)
    (hb : ∀ p ∈ layout, 0 ≤ p.1 ∧ p.1 < h ∧ 0 ≤ p.2 ∧ p.2 < w) :
    SentTrue layout ⟨nbhd cell, nearby_mines layout h w cell⟩ := by
  unfold SentTrue
  simp only
  exact nearby_mines_eq layout h w cell hb

/-- The safe cell cleanup keeps all sentences true. -/
theorem cleanupSafes_preserve (layout safes : Finset Cell) (K : List Sentence)
    (hsafes : ∀ c ∈ safes, c ∉ layout) (hK : ∀ s ∈ K, SentTrue layout s) :
    ∀ s ∈ cleanupSafes safes K, SentTrue layout s := by
  intro s hs
  obtain ⟨t, ht, rfl⟩ := List.mem_map.mp hs
  exact sentTrue_cleanup_safe layout safes hsafes t (hK t ht)

/-- The mine cell cleanup keeps all sentences true. -/
theorem cleanupMines_preserve (layout mines : Finset Cell) (K : List Sentence)
    (hmines : ∀ c ∈ mines, c ∈ layout) (hK : ∀ s ∈ K, SentTrue layout s) :
    ∀ s ∈ cleanupMines mines K, SentTrue layout s := by
  intro s hs
  obtain ⟨t, ht, rfl⟩ := List.mem_map.mp hs
  exact sentTrue_cleanup_mine layout mines hmines t (hK t ht)

/-- The whole closure loop keeps all sentences true. -/
theorem closureLoop_preserve (layout : Finset Cell) (fuel : Nat)
    (safes mines : Finset Cell) (K : List Sentence)
    (hsafes : ∀ c ∈ safes, c ∉ layout) (hmines : ∀ c ∈ mines, c ∈ layout)
    (hK : ∀ s ∈ K, SentTrue layout s) :
    ∀ s ∈ (closureLoop fuel safes mines K).1, SentTrue layout s := by
  induction fuel generalizing K with
  | zero => exact hK
  | succ fuel ih =>
    simp only [closureLoop]
    split
    · exact hK
    · split
      · exact ih _ (cleanupMines_preserve layout mines _ hmines
          (cleanupSafes_preserve layout safes _ hsafes
            (subsumptionPass_preserve (SentTrue layout)
              (fun s1 s2 h1 h2 hs => sentTrue_derived layout s1 s2 h1 h2 hs) K hK)))
      · exact cleanupMines_preserve layout mines _ hmines
          (cleanupSafes_preserve layout safes _ hsafes
            (subsumptionPass_preserve (SentTrue layout)
              (fun s1 s2 h1 h2 hs => sentTrue_derived layout s1 s2 h1 h2 hs) K hK))

/-- All cells of a true sentence whose cell count equals its count are
mines. -/
theorem full_cells_sound (layout : Finset Cell) (s : Sentence) (h : SentTrue layout s)
    (hfull : (s.cells.card : Int) = s.count) : ∀ c ∈ s.cells, c ∈ layout := by
  unfold SentTrue at h
  have hle : (s.cells.filter (fun p => p ∈ layout)).card ≤ s.cells.card :=
    Finset.card_le_card (Finset.filter_subset _ _)
  have hcard : s.cells.card ≤ (s.cells.filter (fun p => p ∈ layout)).card := by omega
  have heq : s.cells.filter (fun p => p ∈ layout) = s.cells :=
    Finset.eq_of_subset_of_card_le (Finset.filter_subset _ _) hcard
  intro c hc
  rw [← heq] at hc
  exact (Finset.mem_filter.mp hc).2

/-- The final mine scan over true sentences only records mines. -/
theorem mineScan_sound (layout : Finset Cell) (K : List Sentence) (acc : Finset Cell)
    (hK : ∀ s ∈ K, SentTrue layout s) (hacc : ∀ c ∈ acc, c ∈ layout) :
    ∀ c ∈ mineScan K acc, c ∈ layout := by
  induction K generalizing acc with
  | nil => exact hacc
  | cons s K ih =>
    have huf : mineScan (s :: K) acc =
        mineScan K (if (s.cells.card : Int) = s.count then acc ∪ s.cells else acc) := rfl
    rw [huf]
    refine ih _ (fun t ht => hK t (List.mem_cons_of_mem _ ht)) ?_
    intro c hc
    split at hc
    case isTrue hfull =>
      rcases Finset.mem_union.mp hc with hc | hc
      · exact hacc c hc
      · exact full_cells_sound layout s (hK s (List.mem_cons_self _ _)) hfull c hc
    case isFalse => exact hacc c hc

/-- The cells added to safes by the count equals zero branch are not
mines. -/
theorem zero_branch_safes (layout : Finset Cell) (h w : Int) (cell : Cell)
    (hb : ∀ p ∈ layout, 0 ≤ p.1 ∧ p.1 < h ∧ 0 ≤ p.2 ∧ p.2 < w)
    (hzero : nearby_mines layout h w cell = 0) :
    ∀ p ∈ ((nbhdList cell).filter inb07).toFinset, p ∉ layout := by
  intro p hp hlay
  have hcard := nearby_mines_eq layout h w cell hb
  rw [hzero] at hcard
  have hc0 : ((nbhd cell).filter (fun q => q ∈ layout)).card = 0 := by omega
  have hmem : p ∈ (nbhd cell).filter (fun q => q ∈ layout) := by
    refine Finset.mem_filter.mpr ⟨?_, hlay⟩
    exact List.mem_toFinset.mpr (List.mem_of_mem_filter (List.mem_toFinset.mp hp))
  rw [Finset.card_eq_zero.mp hc0] at hmem
  exact absurd hmem (Finset.not_mem_empty p)

/-- A consistent observation preserves the invariant. -/
theorem inv_add_knowledge (layout : Finset Cell) (h w : Int) (ai : AI) (cell : Cell)
    (count : Int) (fuel : Nat)
    (hb : ∀ p ∈ layout, 0 ≤ p.1 ∧ p.1 < h ∧ 0 ≤ p.2 ∧ p.2 < w)
    (hInv : EngineInv layout ai) (hcell : cell ∉ layout)
    (hcount : count = nearby_mines layout h w cell) :
    EngineInv layout (ai.add_knowledge cell count fuel) := by
  obtain ⟨hkn, hmines, hsafes⟩ := hInv
  have hK0 : ∀ s ∈ ai.knowledge.map (fun s => s.mark_safe cell), SentTrue layout s := by
    intro s hs
    obtain ⟨t, ht, rfl⟩ := List.mem_map.mp hs
    exact sentTrue_mark_safe layout t cell hcell (hkn t ht)
  simp only [AI.add_knowledge]
  split
  case isTrue hc0 =>
    have hCin : ∀ s ∈ closureInput ai cell count, SentTrue layout s := by
      intro s hs
      unfold closureInput at hs
      rcases List.mem_append.mp hs with hs | hs
      · exact hK0 s hs
      · rcases List.mem_singleton.mp hs with rfl
        rw [hcount]
        exact sentTrue_new layout h w cell hb
    have hKfin := closureLoop_preserve layout fuel ai.safes ai.mines _ hsafes hmines hCin
    exact ⟨hKfin, mineScan_sound layout _ ai.mines hKfin hmines, hsafes⟩
  case isFalse hc0 =>
    refine ⟨hK0, mineScan_sound layout _ ai.mines hK0 hmines, ?_⟩
    intro c hc
    rcases Finset.mem_union.mp hc with hc | hc
    · exact hsafes c hc
    · have hz : nearby_mines layout h w cell = 0 := by omega
      exact zero_branch_safes layout h w cell hb hz c hc

/-- Marking a genuine mine preserves the invariant. -/
theorem inv_mark_mine (layout : Finset Cell) (ai : AI) (cell : Cell)
    (hInv : EngineInv layout ai) (hc : cell ∈ layout) : EngineInv layout (ai.mark_mine cell) := by
  obtain ⟨hkn, hm, hs⟩ := hInv
  refine ⟨?_, ?_, hs⟩
  · intro s hs2
    obtain ⟨t, ht, rfl⟩ := List.mem_map.mp hs2
    exact sentTrue_mark_mine layout t cell hc (hkn t ht)
  · intro c hcm
    rcases Finset.mem_insert.mp hcm with rfl | hcm
    · exact hc
    · exact hm c hcm

/-- Marking a genuinely safe cell preserves the invariant. -/
theorem inv_mark_safe (layout : Finset Cell) (ai : AI) (cell : Cell)
    (hInv : EngineInv layout ai) (hc : cell ∉ layout) : EngineInv layout (ai.mark_safe cell) := by
  obtain ⟨hkn, hm, hs⟩ := hInv
  refine ⟨?_, hm, ?_⟩
  · intro s hs2
    obtain ⟨t, ht, rfl⟩ := List.mem_map.mp hs2
    exact sentTrue_mark_safe layout t cell hc (hkn t ht)
  · intro c hcs
    rcases Finset.mem_insert.mp hcs with rfl | hcs
    · exact hc
    · exact hs c hcs

/-- make_safe_move leaves safes, mines and knowledge unchanged. -/
theorem make_safe_move_fields (ai : AI) :
    ai.make_safe_move.2.safes = ai.safes ∧ ai.make_safe_move.2.mines = ai.mines ∧
    ai.make_safe_move.2.knowledge = ai.knowledge := by
  unfold AI.make_safe_move
  split
  · split <;> exact ⟨rfl, rfl, rfl⟩
  · exact ⟨rfl, rfl, rfl⟩

/-- make_safe_move preserves the invariant. -/
theorem inv_safe_move (layout : Finset Cell) (ai : AI) (hInv : EngineInv layout ai) :
    EngineInv layout ai.make_safe_move.2 := by
  obtain ⟨hf1, hf2, hf3⟩ := make_safe_move_fields ai
  obtain ⟨hkn, hm, hs⟩ := hInv
  rw [EngineInv, hf1, hf2, hf3]
  exact ⟨hkn, hm, hs⟩

/-- Soundness condition for one engine operation: observations carry the
true neighbour mine count of a non mine cell, mark_mine is called on
mines only, mark_safe on non mines only. -/
def OpOK (layout : Finset Cell) (h w : Int) : EngineOp → Prop
  | EngineOp.observe cell count _ =>
      cell ∉ layout ∧ count = nearby_mines layout h w cell
  | EngineOp.mark_mine cell => cell ∈ layout
  | EngineOp.mark_safe cell => cell ∉ layout
  | EngineOp.safe_move => True

/-- Any sound engine operation preserves the invariant. -/
theorem inv_applyOp (layout : Finset Cell) (h w : Int)
    (hb : ∀ p ∈ layout, 0 ≤ p.1 ∧ p.1 < h ∧ 0 ≤ p.2 ∧ p.2 < w)
    (ai : AI) (op : EngineOp) (hInv : EngineInv layout ai) (hop : OpOK layout h w op) :
    EngineInv layout (applyOp ai op) := by
  cases op with
  | observe cell count fuel =>
    exact inv_add_knowledge layout h w ai cell count fuel hb hInv hop.1 hop.2
  | mark_mine cell => exact inv_mark_mine layout ai cell hInv hop
  | mark_safe cell => exact inv_mark_safe layout ai cell hInv hop
  | safe_move => exact inv_safe_move layout ai hInv

/-- Any sequence of sound engine operations preserves the invariant. -/
theorem inv_applyOps (layout : Finset Cell) (h w : Int)
    (hb : ∀ p ∈ layout, 0 ≤ p.1 ∧ p.1 < h ∧ 0 ≤ p.2 ∧ p.2 < w)
    (ops : List EngineOp) (ai : AI) (hInv : EngineInv layout ai)
    (hops : ∀ op ∈ ops, OpOK layout h w op) :
    EngineInv layout (applyOps ai ops) := by
  induction ops generalizing ai with
  | nil => exact hInv
  | cons op ops ih =>
    exact ih (applyOp ai op)
      (inv_applyOp layout h w hb ai op hInv (hops op (List.mem_cons_self _ _)))
      (fun o ho => hops o (List.mem_cons_of_mem _ ho))

/-- The fresh engine satisfies the invariant for every layout. -/
theorem inv_init (layout : Finset Cell) (h w : Int) : EngineInv layout (initAI h w) :=
  ⟨fun s hs => absurd hs (List.not_mem_nil s),
   fun c hc => absurd hc (Finset.not_mem_empty c),
   fun c hc => absurd hc (Finset.not_mem_empty c)⟩

/-! ### Claim C7

As stated over arbitrary operation sequences the count invariant fails:
after observing (0,2) with count 8 the appended sentence has eight cells
and count 8, and an engine mark_safe on one of them removes a cell
without touching the count, leaving count 8 over seven cells.  What does
hold is the invariant over sound sequences: observations consistent with
a fixed layout, mark_mine only on mines, mark_safe only on safe cells. -/

/-- C7 counterexample: an operation sequence after which some sentence
violates the bound count at most the number of cells. -/
theorem C7_counterexample :
    ¬ (∀ s ∈ (applyOps (initAI 8 8)
          [EngineOp.observe (0, 2) 8 1, EngineOp.mark_safe (0, 1)]).knowledge,
        0 ≤ s.count ∧ s.count ≤ (s.cells.card : Int)) := by
  decide

/-- C7 amended: for every operation sequence that is sound for a fixed
mine layout inside the board, every sentence of the knowledge base
satisfies both count bounds. -/
theorem C7_count_invariant_sound (layout : Finset Cell) (h w : Int)
    (ops : List EngineOp)
    (hb : ∀ p ∈ layout, 0 ≤ p.1 ∧ p.1 < h ∧ 0 ≤ p.2 ∧ p.2 < w)
    (hops : ∀ op ∈ ops, OpOK layout h w op) :
    ∀ s ∈ (applyOps (initAI h w) ops).knowledge,
      0 ≤ s.count ∧ s.count ≤ (s.cells.card : Int) := by
  have hInv := inv_applyOps layout h w hb ops (initAI h w) (inv_init layout h w) hops
  intro s hs
  have ht := hInv.1 s hs
  unfold SentTrue at ht
  have hle : (s.cells.filter (fun p => p ∈ layout)).card ≤ s.cells.card :=
    Finset.card_le_card (Finset.filter_subset _ _)
  omega

/-- C7 witness: the sound singleton sequence observing (1,1) with its
true count 1 for the single mine at (2,2) on a 5 by 5 board. -/
theorem C7_count_invariant_sound_witness :
    (∀ p ∈ ({((2 : Int), (2 : Int))} : Finset Cell),
      0 ≤ p.1 ∧ p.1 < 5 ∧ 0 ≤ p.2 ∧ p.2 < 5) ∧
    (∀ op ∈ [EngineOp.observe (1, 1) 1 1],
      OpOK {((2 : Int), (2 : Int))} 5 5 op) ∧
    (∀ s ∈ (applyOps (initAI 5 5) [EngineOp.observe (1, 1) 1 1]).knowledge,
      0 ≤ s.count ∧ s.count ≤ (s.cells.card : Int)) :=
  ⟨by decide,
   by
    intro op hop
    rcases List.mem_singleton.mp hop with rfl
    exact ⟨by decide, by decide⟩,
   C7_count_invariant_sound {((2 : Int), (2 : Int))} 5 5
     [EngineOp.observe (1, 1) 1 1] (by decide)
     (by
       intro op hop
       rcases List.mem_singleton.mp hop with rfl
       exact ⟨by decide, by decide⟩)⟩

/-! ### Claim C8

For observation sequences consistent with a fixed layout the safes set
only ever receives non mine cells and the mines set only mine cells, so
the two sets are disjoint after every add_knowledge call. -/

/-- A sequence of observations fed to add_knowledge, starting from a
fresh engine. -/
def runObs (h w : Int) (obs : List (Cell × Int)) (fuel : Nat) : AI :=
  obs.foldl (fun a o => a.add_knowledge o.1 o.2 fuel) (initAI h w)

/-- Consistent observation sequences preserve the invariant along the
fold. -/
theorem inv_runObs_aux (layout : Finset Cell) (h w : Int) (fuel : Nat)
    (hb : ∀ p ∈ layout, 0 ≤ p.1 ∧ p.1 < h ∧ 0 ≤ p.2 ∧ p.2 < w) :
    ∀ (obs : List (Cell × Int)),
      (∀ o ∈ obs, o.1 ∉ layout ∧ o.2 = nearby_mines layout h w o.1) →
      ∀ ai, EngineInv layout ai →
      EngineInv layout (obs.foldl (fun a o => a.add_knowledge o.1 o.2 fuel) ai)
  | [], _, _, h1 => h1
  | o :: obs, hobs, ai, h1 => by
    have h2 := inv_add_knowledge layout h w ai o.1 o.2 fuel hb h1
      (hobs o (List.mem_cons_self _ _)).1 (hobs o (List.mem_cons_self _ _)).2
    exact inv_runObs_aux layout h w fuel hb obs
      (fun o2 ho2 => hobs o2 (List.mem_cons_of_mem _ ho2)) _ h2

/-- C8: for every sequence of observations consistent with a single
fixed mine layout inside the board, the safes and mines sets of the
engine are disjoint after every add_knowledge call. -/
theorem C8_safes_mines_disjoint (layout : Finset Cell) (h w : Int)
    (obs : List (Cell × Int)) (fuel : Nat)
    (hb : ∀ p ∈ layout, 0 ≤ p.1 ∧ p.1 < h ∧ 0 ≤ p.2 ∧ p.2 < w)
    (hobs : ∀ o ∈ obs, o.1 ∉ layout ∧ o.2 = nearby_mines layout h w o.1) :
    (runObs h w obs fuel).safes ∩ (runObs h w obs fuel).mines = ∅ := by
  have hInv := inv_runObs_aux layout h w fuel hb obs hobs (initAI h w) (inv_init layout h w)
  apply Finset.eq_empty_iff_forall_not_mem.mpr
  intro c hc
  have h1 := Finset.mem_inter.mp hc
  exact hInv.2.2 c h1.1 (hInv.2.1 c h1.2)

/-- C8 witness: the two consistent observations ((0,0),0) and ((1,1),1)
for the single mine at (2,2) on a 5 by 5 board leave disjoint safes and
mines sets. -/
theorem C8_safes_mines_disjoint_witness :
    (∀ p ∈ ({((2 : Int), (2 : Int))} : Finset Cell),
      0 ≤ p.1 ∧ p.1 < 5 ∧ 0 ≤ p.2 ∧ p.2 < 5) ∧
    (∀ o ∈ [(((0 : Int), (0 : Int)), (0 : Int)), (((1 : Int), (1 : Int)), (1 : Int))],
      o.1 ∉ ({((2 : Int), (2 : Int))} : Finset Cell) ∧
      o.2 = nearby_mines {((2 : Int), (2 : Int))} 5 5 o.1) ∧
    (runObs 5 5 [(((0 : Int), (0 : Int)), (0 : Int)), (((1 : Int), (1 : Int)), (1 : Int))] 1).safes ∩
      (runObs 5 5 [(((0 : Int), (0 : Int)), (0 : Int)), (((1 : Int), (1 : Int)), (1 : Int))] 1).mines = ∅ :=
  ⟨by decide, by decide,
   C8_safes_mines_disjoint {((2 : Int), (2 : Int))} 5 5
     [(((0 : Int), (0 : Int)), (0 : Int)), (((1 : Int), (1 : Int)), (1 : Int))] 1
     (by decide) (by decide)⟩
